import Mathlib

/-!
Verification of the farfield module (`fmmax/farfield.py`).

The module converts flux data indexed by (Brillouin-zone sample, Fourier
order) into farfield quantities.  We shallow-embed the module over the real
numbers: arrays become functions over integer (or natural) indices, the
not-a-number sentinel used for unreachable grid bins becomes `Option`
(`none` = NaN), and fallible steps (Python `assert` failures, the
`ValueError` raised by `min()` on an empty sequence) make the embedded
functions return `Option`.
-/

namespace Farfield

/-- Modelled from the spec: `basis.Expansion` (the `basis` collaborator module
is not part of the shown source).  An ordered list of integer Fourier-order
pairs `(i, j)`; `num_terms` is the number of retained orders. -/
structure Expansion where
  basis_coefficients : List (Int × Int)
deriving DecidableEq

def Expansion.num_terms (e : Expansion) : Nat := e.basis_coefficients.length

/-- The list of first components, `i = expansion.basis_coefficients[:, 0]`. -/
def iList (e : Expansion) : List Int := e.basis_coefficients.map Prod.fst

/-- The list of second components, `j = expansion.basis_coefficients[:, 1]`. -/
def jList (e : Expansion) : List Int := e.basis_coefficients.map Prod.snd

/-- The coefficient pair of the `k`-th Fourier order (arbitrary default out of
range; the scatter only reads indices `k < num_terms`). -/
def coeffPair (e : Expansion) (k : Nat) : Int × Int :=
  e.basis_coefficients.getD k (0, 0)

def coeffI (e : Expansion) (k : Nat) : Int := (coeffPair e k).1

def coeffJ (e : Expansion) (k : Nat) : Int := (coeffPair e k).2

/-- Python `min(i)`, defined when the coefficient list is nonempty (Python's `min`
raises `ValueError` on an empty sequence; callers gate on that). -/
def minI (e : Expansion) : Int := (iList e).min?.getD 0

def maxI (e : Expansion) : Int := (iList e).max?.getD 0

def minJ (e : Expansion) : Int := (jList e).min?.getD 0

def maxJ (e : Expansion) : Int := (jList e).max?.getD 0

/-!  ### The Unflatten Engine (`unflatten`)

`unflatten` scatters a flat array with trailing axes
`(num_bz_kx, num_bz_ky, num_terms)` into a dense grid whose trailing axes
have extents `(max(i)-min(i)+1)*num_bz_kx` by `(max(j)-min(j)+1)*num_bz_ky`,
pre-filled with NaN.  Leading batch axes pass through unchanged; we model
them by letting the scattered values live in an arbitrary type `α` (a batch
slice per value).  The grid is a total function on `ℤ × ℤ` returning
`Option α`; `none` models the NaN fill. -/

/-- Destination column: `i_k * num_bz_kx + bz_x - min(i) * num_bz_kx`. -/
def destX (e : Expansion) (nbx : Nat) (ik : Int) (bx : Nat) : Int :=
  ik * nbx + bx - minI e * nbx

/-- Destination row: `j_k * num_bz_ky + bz_y - min(j) * num_bz_ky`. -/
def destY (e : Expansion) (nby : Nat) (jk : Int) (by_ : Nat) : Int :=
  jk * nby + by_ - minJ e * nby

/-- The triples `(bz_x, bz_y, k)` produced by `onp.meshgrid(..., indexing="ij")`
broadcast against the order index and flattened in C order. -/
def triples (nbx nby nt : Nat) : List (Nat × Nat × Nat) :=
  (List.range nbx).flatMap fun bx =>
    (List.range nby).flatMap fun by_ =>
      (List.range nt).map fun k => (bx, by_, k)

/-- The scatter coordinate of one triple. -/
def dest (e : Expansion) (nbx nby : Nat) (t : Nat × Nat × Nat) : Int × Int :=
  (destX e nbx (coeffI e t.2.2) t.1, destY e nby (coeffJ e t.2.2) t.2.1)

/-- The coordinate/value list driving
`jnp.full(shape, jnp.nan).at[..., stacked_i, stacked_j].set(stacked_flat)`. -/
def scatterList (e : Expansion) (nbx nby : Nat) (flat : Nat → Nat → Nat → α) :
    List ((Int × Int) × α) :=
  (triples nbx nby e.num_terms).map fun t =>
    (dest e nbx nby t, flat t.1 t.2.1 t.2.2)

/-- One grid entry after the scatter: the value of the last triple written to
this coordinate (numpy scatter semantics: later writes win), or `none` (NaN)
if no triple maps here. -/
def unflattenEntry (e : Expansion) (nbx nby : Nat) (flat : Nat → Nat → Nat → α)
    (x y : Int) : Option α :=
  (((scatterList e nbx nby flat).filter fun p => decide (p.1 = (x, y))).getLast?).map
    Prod.snd

/-- Extent of the unflattened grid along x: `(max(i) - min(i) + 1) * num_bz_kx`. -/
def numKx (e : Expansion) (nbx : Nat) : Nat := ((maxI e - minI e + 1) * nbx).toNat

/-- Extent of the unflattened grid along y: `(max(j) - min(j) + 1) * num_bz_ky`. -/
def numKy (e : Expansion) (nby : Nat) : Nat := ((maxJ e - minJ e + 1) * nby).toNat

/-- The result of `unflatten`: the grid extents and the entries. -/
structure UnflatGrid (α : Type) where
  nkx : Nat
  nky : Nat
  entry : Int → Int → Option α

/-- The function `unflatten(flat, expansion)` for a flat array with trailing axes
`(num_bz_kx, num_bz_ky, num_terms)`.  Returns `none` when the coefficient
list is empty: the source evaluates `min(i)` with Python's builtin `min`,
which raises `ValueError: min() arg is an empty sequence`. -/
def unflatten (e : Expansion) (nbx nby : Nat) (flat : Nat → Nat → Nat → α) :
    Option (UnflatGrid α) :=
  match (iList e).min? with
  | none => none
  | some _ => some ⟨numKx e nbx, numKy e nby, unflattenEntry e nbx nby flat⟩

/-- The triple (if any) whose scatter destination is `(x, y)`; the grid entry
is the flat value of this triple.  (Value-independent: which bin is written
depends only on the expansion and the Brillouin grid shape.) -/
def hitTriple (e : Expansion) (nbx nby : Nat) (x y : Int) : Option (Nat × Nat × Nat) :=
  ((triples nbx nby e.num_terms).filter fun t => decide (dest e nbx nby t = (x, y))).getLast?

/-- A gap bin: no (Fourier order, Brillouin sample) combination maps to it. -/
def gapBin (e : Expansion) (nbx nby : Nat) (x y : Int) : Prop :=
  hitTriple e nbx nby x y = none

instance (e : Expansion) (nbx nby : Nat) (x y : Int) :
    Decidable (gapBin e nbx nby x y) := by
  unfold gapBin; infer_instance

/-!  ### Angle computation
(`angles_from_unflattened_transverse_wavevectors`)

`kt = sqrt(kx^2 + ky^2)`; `sin_polar = kt * wavelength / (2*pi)`;
`polar = where(sin_polar > 1, pi/2, arcsin(sin_polar))`;
`azimuthal = angle(kx + 1j*ky)`.  These are elementwise; we embed the
per-bin scalar computation and apply it pointwise to grids. -/

noncomputable def polarAngle (kx ky wavelength : ℝ) : ℝ :=
  let kt := Real.sqrt (kx ^ 2 + ky ^ 2)
  let sin_polar_angle := kt * wavelength / (2 * Real.pi)
  if sin_polar_angle > 1 then Real.pi / 2 else Real.arcsin sin_polar_angle

/-- The azimuthal angle `jnp.angle(kx + 1j * ky)`: the argument of the complex number `kx + i ky`,
i.e. the signed full-range two-argument arctangent of `(ky, kx)`. -/
noncomputable def azimuthalAngle (kx ky : ℝ) : ℝ :=
  Complex.arg (Complex.mk kx ky)

/-- The grid-level function: a transverse-wavevector grid maps each bin to its
`(polar, azimuthal)` pair.  (The wavevector grid passes its trailing axis of
length 2 as the direction index; the rank assertion of the source relates the
batch shapes, which the embedding handles pointwise.) -/
noncomputable def angles_from_unflattened_transverse_wavevectors
    (twGrid : Int → Int → Nat → ℝ) (wavelength : ℝ) (x y : Int) : ℝ × ℝ :=
  (polarAngle (twGrid x y 0) (twGrid x y 1) wavelength,
    azimuthalAngle (twGrid x y 0) (twGrid x y 1))

/-!  ### Solid-angle computation
(`solid_angle_from_unflattened_transverse_wavevectors`)

The wavevectors are normalized by `2*pi/wavelength`, each bin is treated as a
quadrilateral cell whose vertices average the four neighboring bin centers
(`jnp.pad(..., mode="edge")` replicates the boundary values), and the planar
cell area is projected onto the unit sphere by dividing by the cosine of the
bin's polar angle. -/

/-- Edge-replicating index clamp used to model `jnp.pad(x, 1, mode="edge")`
followed by slicing: index `z` of the padded array reads clamped index
`z - 1` of the original. -/
def clampIdx (n : Nat) (z : Int) : Int := max 0 (min ((n : Int) - 1) z)

/-- The edge-padded grid: `padE g a b` is entry `(a, b)` of
`jnp.pad(g, ((1,1),(1,1)), mode="edge")` for a grid with extents `(n, m)`. -/
noncomputable def padE (n m : Nat) (g : Int → Int → ℝ) (a b : Int) : ℝ :=
  g (clampIdx n (a - 1)) (clampIdx m (b - 1))

/-- Vertex value: the average of the four padded neighbors, i.e. entry
`(a, b)` of `(p[:-1,:-1] + p[:-1,1:] + p[1:,:-1] + p[1:,1:]) / 4`. -/
noncomputable def vertexVal (n m : Nat) (g : Int → Int → ℝ) (a b : Int) : ℝ :=
  (padE n m g a b + padE n m g a (b + 1) + padE n m g (a + 1) b +
    padE n m g (a + 1) (b + 1)) / 4

/-- Normalized x-component: `kx / (2 * pi / wavelength)`. -/
noncomputable def normKx (twGrid : Int → Int → Nat → ℝ) (wavelength : ℝ)
    (a b : Int) : ℝ :=
  twGrid a b 0 / (2 * Real.pi / wavelength)

/-- Normalized y-component: `ky / (2 * pi / wavelength)`. -/
noncomputable def normKy (twGrid : Int → Int → Nat → ℝ) (wavelength : ℝ)
    (a b : Int) : ℝ :=
  twGrid a b 1 / (2 * Real.pi / wavelength)

/-- The signed parallelogram cross product `v1_x*v2_y - v2_x*v1_y` of the cell
at bin `(x, y)`; the cell planar area is its absolute value. -/
noncomputable def cellCross (n m : Nat) (twGrid : Int → Int → Nat → ℝ)
    (wavelength : ℝ) (x y : Int) : ℝ :=
  let vkx := vertexVal n m (normKx twGrid wavelength)
  let vky := vertexVal n m (normKy twGrid wavelength)
  let v1x := vkx x (y + 1) - vkx x y
  let v1y := vky x (y + 1) - vky x y
  let v2x := vkx (x + 1) y - vkx x y
  let v2y := vky (x + 1) y - vky x y
  v1x * v2y - v2x * v1y

/-- The per-bin solid angle: planar cell area divided by the cosine of the
bin's polar angle `arcsin(sqrt(kxn^2 + kyn^2))`. -/
noncomputable def solid_angle_from_unflattened_transverse_wavevectors
    (n m : Nat) (twGrid : Int → Int → Nat → ℝ) (wavelength : ℝ)
    (x y : Int) : ℝ :=
  let polar := Real.arcsin (Real.sqrt
    ((normKx twGrid wavelength x y) ^ 2 + (normKy twGrid wavelength x y) ^ 2))
  |cellCross n m twGrid wavelength x y| / Real.cos polar

/-!  ### The Integrated Flux Engine
(`integrated_flux`, `_integrated_flux_weights`, `_integrated_flux_upsampled`)

`_integrated_flux_upsampled` unflattens flux and transverse wavevectors,
replaces the NaN sentinels by zero, upsamples both grids with
`jax.image.resize(..., method="linear")`, masks by `angle_bounds_fn` applied
to the angles of the upsampled wavevectors (NaN mask values count as
excluded), and sums over the two spatial axes and the polarization axis,
dividing by `upsample_factor**2`.

We embed one batch element pointwise (the axis transpositions of
`unflatten_flux` / `unflatten_transverse_wavevectors` only route batch axes
around the Unflatten Engine).  The flux array is `flux bx by k2 s` with
`k2 < 2*num_terms` interleaving polarization-major `(2, num_terms)` (C
order: `k2 = p * num_terms + k`), the transverse wavevectors are
`tw bx by k d` with direction `d < 2`, the wavelength is a scalar, and the
mask function returns `Option Bool` (`none` models a NaN mask value). -/

/-- Floor index of the linear-interpolation source for output index `o` under
upsampling by `u`: `floor((o + 1/2)/u - 1/2)`, computed exactly as
`floor((2*o + 1 - u) / (2*u))`. -/
def resampleF (u : Nat) (o : Int) : Int := Int.fdiv (2 * o + 1 - u) (2 * u)

/-- Fractional interpolation weight `t = (o + 1/2)/u - 1/2 - floor(...)`. -/
noncomputable def resampleT (u : Nat) (o : Int) : ℝ :=
  ((2 * o + 1 - u - 2 * u * resampleF u o : Int) : ℝ) / ((2 * u : Nat) : ℝ)

/-- One axis of `jax.image.resize(x, (u*n, ...), method="linear")`: output `o`
samples input coordinate `(o + 1/2)/u - 1/2` and interpolates linearly between
its floor and ceiling neighbors.  For upsampling (`u >= 1`) the boundary
renormalization of the resize kernel coincides with clamping the neighbor
indices into range, which is how we express it. -/
noncomputable def resample1D (u n : Nat) (g : Int → ℝ) (o : Int) : ℝ :=
  (1 - resampleT u o) * g (clampIdx n (resampleF u o)) +
    resampleT u o * g (clampIdx n (resampleF u o + 1))

/-- Separable two-axis linear resize (the `linear` method resizes each spatial
axis independently). -/
noncomputable def resample2D (u nx ny : Nat) (g : Int → Int → ℝ) (x y : Int) : ℝ :=
  resample1D u ny (fun b => resample1D u nx (fun a => g a b) x) y

/-- The unflattened flux grid after `jnp.where(jnp.isnan(flux), 0, flux)`:
`unflatten_flux` reshapes the `2*num_terms` axis to `(2, num_terms)` (so flat
index `k2 = p * num_terms + k`), treats polarization and sources as batch
axes of the Unflatten Engine, and the NaN fill of unreachable bins is then
replaced by zero. -/
noncomputable def fluxGridZ (e : Expansion) (nbx nby : Nat)
    (f : Nat → Nat → Nat → ℝ) (x y : Int) (p : Nat) : ℝ :=
  (unflattenEntry e nbx nby (fun bx by_ k => f bx by_ (p * e.num_terms + k)) x y).getD 0

/-- The unflattened transverse-wavevector grid after
`jnp.where(jnp.isnan(tw), 0, tw)`: `unflatten_transverse_wavevectors` treats
the trailing direction axis as a batch axis of the Unflatten Engine, and the
NaN fill is then replaced by zero. -/
noncomputable def twGridZ (e : Expansion) (nbx nby : Nat)
    (tw : Nat → Nat → Nat → Nat → ℝ) (x y : Int) (d : Nat) : ℝ :=
  (unflattenEntry e nbx nby (fun bx by_ k => tw bx by_ k d) x y).getD 0

/-- The upsampled flux grid (`jax.image.resize` over the two spatial axes,
polarization and source axes untouched). -/
noncomputable def upsampledFlux (e : Expansion) (nbx nby u : Nat)
    (f : Nat → Nat → Nat → ℝ) (x y : Int) (p : Nat) : ℝ :=
  resample2D u (numKx e nbx) (numKy e nby)
    (fun a b => fluxGridZ e nbx nby f a b p) x y

/-- The upsampled transverse-wavevector grid. -/
noncomputable def upsampledTW (e : Expansion) (nbx nby u : Nat)
    (tw : Nat → Nat → Nat → Nat → ℝ) (x y : Int) (d : Nat) : ℝ :=
  resample2D u (numKx e nbx) (numKy e nby)
    (fun a b => twGridZ e nbx nby tw a b d) x y

/-- The mask policy `selected = jnp.where(jnp.isnan(selected), False, selected)`: a NaN mask
value (`none`) is treated as excluded. -/
def maskSel (fn : ℝ → ℝ → Option Bool) (polar azim : ℝ) : Bool :=
  (fn polar azim).getD false

/-- The inclusion mask of one upsampled bin: `angle_bounds_fn` applied to the
angles of the upsampled wavevector grid, with NaN treated as `False`. -/
noncomputable def pipelineSel (e : Expansion) (nbx nby u : Nat)
    (tw : Nat → Nat → Nat → Nat → ℝ) (wavelength : ℝ)
    (fn : ℝ → ℝ → Option Bool) (x y : Int) : Bool :=
  let ang := angles_from_unflattened_transverse_wavevectors
    (fun a b d => upsampledTW e nbx nby u tw a b d) wavelength x y
  maskSel fn ang.1 ang.2

/-- The core of `_integrated_flux_upsampled` for one source column:
`jnp.sum(jnp.where(selected, flux, 0), axis=(-4, -3, -2)) / upsample_factor**2`. -/
noncomputable def maskedFluxSum (e : Expansion) (nbx nby u : Nat)
    (tw : Nat → Nat → Nat → Nat → ℝ) (wavelength : ℝ)
    (fn : ℝ → ℝ → Option Bool) (f : Nat → Nat → Nat → ℝ) : ℝ :=
  (∑ x ∈ Finset.range (u * numKx e nbx), ∑ y ∈ Finset.range (u * numKy e nby),
      ∑ p ∈ Finset.range 2,
        if pipelineSel e nbx nby u tw wavelength fn (x : Int) (y : Int) then
          upsampledFlux e nbx nby u f (x : Int) (y : Int) p
        else 0) / (u : ℝ) ^ 2

/-- The pipeline `_integrated_flux_upsampled`: fails (`none`) when `upsample_factor < 1`
(the `assert upsample_factor >= 1`) or when the expansion is empty (the
`ValueError` raised inside `unflatten`); otherwise returns the per-source
masked upsampled sum.  The transverse wavevectors `tw` stand for the output
of the external collaborator `basis.transverse_wavevectors`. -/
noncomputable def integrated_flux_upsampled (e : Expansion) (nbx nby : Nat)
    (u : Int) (flux : Nat → Nat → Nat → Nat → ℝ)
    (tw : Nat → Nat → Nat → Nat → ℝ) (wavelength : ℝ)
    (fn : ℝ → ℝ → Option Bool) : Option (Nat → ℝ) :=
  if u < 1 then none
  else
    match (iList e).min? with
    | none => none
    | some _ => some fun s =>
        maskedFluxSum e nbx nby u.toNat tw wavelength fn
          (fun bx by_ k2 => flux bx by_ k2 s)

/-- Index type of one coarse flux element (Brillouin sample and
order/polarization index) for a fixed shape. -/
abbrev FluxIdx (e : Expansion) (nbx nby : Nat) :=
  Fin nbx × Fin nby × Fin (2 * e.num_terms)

/-- Extends a coarse flux vector to total index functions (zero out of
range; the pipeline never reads out-of-range values). -/
def extendFlux (e : Expansion) (nbx nby : Nat) (f : FluxIdx e nbx nby → ℝ) :
    Nat → Nat → Nat → ℝ := fun bx by_ k2 =>
  if h : bx < nbx ∧ by_ < nby ∧ k2 < 2 * e.num_terms then
    f (⟨bx, h.1⟩, ⟨by_, h.2.1⟩, ⟨k2, h.2.2⟩)
  else 0

/-- The reduction `_integrated_fn`: the scalar reduction of the single-source upsampled
masked flux, as a function of the coarse flux vector. -/
noncomputable def integratedFn (e : Expansion) (nbx nby u : Nat)
    (tw : Nat → Nat → Nat → Nat → ℝ) (wavelength : ℝ)
    (fn : ℝ → ℝ → Option Bool) (f : FluxIdx e nbx nby → ℝ) : ℝ :=
  maskedFluxSum e nbx nby u tw wavelength fn (extendFlux e nbx nby f)

/-- Modelled from the spec: `jax.grad` (the `jax` collaborator library is
external to the shown source).  The weights are the reverse-mode gradient of
`_integrated_fn` at the all-ones single-source dummy flux
`dummy_flux = jnp.ones(flux.shape[:-1] + (1,))`; we model the gradient as the
Frechet derivative of the embedded `_integrated_fn` at that point, its
component for coarse element `idx` being the derivative along the basis
vector `Pi.single idx 1`. -/
noncomputable def gradWeights (e : Expansion) (nbx nby u : Nat)
    (tw : Nat → Nat → Nat → Nat → ℝ) (wavelength : ℝ)
    (fn : ℝ → ℝ → Option Bool) : FluxIdx e nbx nby → ℝ := fun idx =>
  fderiv ℝ (integratedFn e nbx nby u tw wavelength fn)
    (fun _ => 1) (Pi.single idx 1)

/-- The wrapper `_integrated_flux_weights`: the gradient weights, gated like the pipeline
it differentiates (its trace executes the `assert` and `unflatten`). -/
noncomputable def integrated_flux_weights (e : Expansion) (nbx nby : Nat)
    (u : Int) (tw : Nat → Nat → Nat → Nat → ℝ) (wavelength : ℝ)
    (fn : ℝ → ℝ → Option Bool) : Option (FluxIdx e nbx nby → ℝ) :=
  if u < 1 then none
  else
    match (iList e).min? with
    | none => none
    | some _ => some (gradWeights e nbx nby u.toNat tw wavelength fn)

/-- The entry point `integrated_flux`: the weights applied to the actual (multi-source) flux
by elementwise multiplication and summation over the Brillouin-grid axes and
the order/polarization axis
(`jnp.sum(weights * flux, axis=brillouin_grid_axes + (-2,))`). -/
noncomputable def integrated_flux (e : Expansion) (nbx nby : Nat) (u : Int)
    (flux : Nat → Nat → Nat → Nat → ℝ) (tw : Nat → Nat → Nat → Nat → ℝ)
    (wavelength : ℝ) (fn : ℝ → ℝ → Option Bool) : Option (Nat → ℝ) :=
  (integrated_flux_weights e nbx nby u tw wavelength fn).map fun w s =>
    ∑ idx : FluxIdx e nbx nby, w idx * flux idx.1 idx.2.1 idx.2.2 s

lemma mem_triples {nbx nby nt : Nat} {t : Nat × Nat × Nat} :
    t ∈ triples nbx nby nt ↔ t.1 < nbx ∧ t.2.1 < nby ∧ t.2.2 < nt := by
  obtain ⟨bx, by_, k⟩ := t
  simp [triples, List.mem_flatMap, List.mem_map, List.mem_range]
  constructor
  · rintro ⟨a, ha, b, hb, c, hc, h1, h2, h3⟩
    subst h1; subst h2; subst h3; exact ⟨ha, hb, hc⟩
  · rintro ⟨ha, hb, hc⟩
    exact ⟨bx, ha, by_, hb, k, hc, rfl, rfl, rfl⟩

/-- The scatter entry function, rewritten through the value-independent
`hitTriple`. -/
lemma unflattenEntry_eq_hit (e : Expansion) (nbx nby : Nat)
    (flat : Nat → Nat → Nat → α) (x y : Int) :
    unflattenEntry e nbx nby flat x y =
      (hitTriple e nbx nby x y).map fun t => flat t.1 t.2.1 t.2.2 := by
  unfold unflattenEntry scatterList hitTriple
  rw [List.filter_map, List.getLast?_map, Option.map_map]
  rfl

/-- Column indices determine the order coefficient and the Brillouin sample:
`i * nbx + bx` with `bx < nbx` is a Euclidean decomposition. -/
lemma destX_inj (e : Expansion) {nbx : Nat} {i i' : Int} {bx bx' : Nat}
    (hbx : bx < nbx) (hbx' : bx' < nbx)
    (h : destX e nbx i bx = destX e nbx i' bx') : i = i' ∧ bx = bx' := by
  unfold destX at h
  have h2 : (i - i') * nbx = (bx' : Int) - bx := by ring_nf; linarith [h]
  have hi : i = i' := by
    by_contra hne
    have h1 : 1 ≤ |i - i'| := Int.one_le_abs (sub_ne_zero.mpr hne)
    have habs : |(i - i') * (nbx : Int)| = |i - i'| * nbx := by
      rw [abs_mul, abs_of_nonneg (by positivity : (0 : Int) ≤ (nbx : Int))]
    have hlow : (nbx : Int) ≤ |(i - i') * (nbx : Int)| := by
      rw [habs]
      nlinarith [h1]
    have hup : |(bx' : Int) - bx| < nbx := by
      rw [abs_lt]; omega
    rw [h2] at hlow
    omega
  subst hi
  refine ⟨rfl, ?_⟩
  have : (bx' : Int) = bx := by nlinarith [h2]
  omega

lemma destY_inj (e : Expansion) {nby : Nat} {j j' : Int} {by1 by2 : Nat}
    (hb1 : by1 < nby) (hb2 : by2 < nby)
    (h : destY e nby j by1 = destY e nby j' by2) : j = j' ∧ by1 = by2 := by
  unfold destY at h
  have h2 : (j - j') * nby = (by2 : Int) - by1 := by ring_nf; linarith [h]
  have hj : j = j' := by
    by_contra hne
    have h1 : 1 ≤ |j - j'| := Int.one_le_abs (sub_ne_zero.mpr hne)
    have habs : |(j - j') * (nby : Int)| = |j - j'| * nby := by
      rw [abs_mul, abs_of_nonneg (by positivity : (0 : Int) ≤ (nby : Int))]
    have hlow : (nby : Int) ≤ |(j - j') * (nby : Int)| := by
      rw [habs]
      nlinarith [h1]
    have hup : |(by2 : Int) - by1| < nby := by
      rw [abs_lt]; omega
    rw [h2] at hlow
    omega
  subst hj
  refine ⟨rfl, ?_⟩
  have : (by2 : Int) = by1 := by nlinarith [h2]
  omega

/-- With pairwise-distinct coefficients, the scatter destinations of distinct
triples are distinct. -/
lemma dest_inj (e : Expansion) (nbx nby : Nat)
    (hnd : e.basis_coefficients.Nodup) {t t' : Nat × Nat × Nat}
    (ht : t ∈ triples nbx nby e.num_terms) (ht' : t' ∈ triples nbx nby e.num_terms)
    (h : dest e nbx nby t = dest e nbx nby t') : t = t' := by
  obtain ⟨bx, by1, k⟩ := t
  obtain ⟨bx', by2, k'⟩ := t'
  rw [mem_triples] at ht ht'
  unfold dest at h
  simp only [Prod.mk.injEq] at h
  obtain ⟨hx, hy⟩ := h
  obtain ⟨hIeq, hbxeq⟩ := destX_inj e ht.1 ht'.1 hx
  obtain ⟨hJeq, hbyeq⟩ := destY_inj e ht.2.1 ht'.2.1 hy
  have hk : k = k' := by
    have hk1 : k < e.basis_coefficients.length := ht.2.2
    have hk2 : k' < e.basis_coefficients.length := ht'.2.2
    have hpair : coeffPair e k = coeffPair e k' := by
      have : (coeffI e k, coeffJ e k) = (coeffI e k', coeffJ e k') := by
        rw [hIeq, hJeq]
      simpa [coeffI, coeffJ, Prod.ext_iff] using this
    have hg1 : coeffPair e k = e.basis_coefficients.get ⟨k, hk1⟩ := by
      simp [coeffPair, List.getD_eq_getElem?_getD, List.getElem?_eq_getElem hk1]
    have hg2 : coeffPair e k' = e.basis_coefficients.get ⟨k', hk2⟩ := by
      simp [coeffPair, List.getD_eq_getElem?_getD, List.getElem?_eq_getElem hk2]
    have := hpair
    rw [hg1, hg2] at this
    have := List.Nodup.get_inj_iff hnd |>.mp this
    simpa using this
  simp only at hbxeq hbyeq
  subst hbxeq
  subst hbyeq
  subst hk
  rfl

/-- If every element of `l` equals `a`, then `(a :: l).getLast? = some a`. -/
lemma getLast?_cons_all_eq {α : Type} (a : α) :
    ∀ (l : List α), (∀ x ∈ l, x = a) → (a :: l).getLast? = some a := by
  intro l
  induction l with
  | nil => intro _; rfl
  | cons b l ih =>
    intro h
    have hb : b = a := h b (by simp)
    subst hb
    have : (b :: b :: l).getLast? = (b :: l).getLast? := by
      rw [List.getLast?_cons_cons]
    rw [this]
    exact ih fun x hx => h x (by simp [hx])

/-- When exactly one element of a list satisfies the predicate, the last
filtered element is that element. -/
lemma getLast?_filter_unique {α : Type} {p : α → Bool} {a : α} :
    ∀ {l : List α}, a ∈ l → p a = true → (∀ b ∈ l, p b = true → b = a) →
      (l.filter p).getLast? = some a := by
  intro l
  induction l with
  | nil => intro h; cases h
  | cons c cs ih =>
    intro ha hpa hu
    by_cases hc : p c = true
    · have hca : c = a := hu c (by simp) hc
      subst hca
      rw [List.filter_cons_of_pos hc]
      refine getLast?_cons_all_eq c (cs.filter p) ?_
      intro x hx
      rw [List.mem_filter] at hx
      exact hu x (by simp [hx.1]) hx.2
    · rw [List.filter_cons_of_neg hc]
      have ha' : a ∈ cs := by
        rcases List.mem_cons.mp ha with h | h
        · exfalso; rw [h] at hpa; exact hc hpa
        · exact h
      exact ih ha' hpa fun b hb hpb => hu b (by simp [hb]) hpb

/-- Round trip at a written bin: `hitTriple` recovers the triple that was
scattered there, provided the coefficients are pairwise distinct. -/
lemma hitTriple_dest (e : Expansion) (nbx nby : Nat)
    (hnd : e.basis_coefficients.Nodup) {t : Nat × Nat × Nat}
    (ht : t ∈ triples nbx nby e.num_terms) :
    hitTriple e nbx nby (dest e nbx nby t).1 (dest e nbx nby t).2 = some t := by
  unfold hitTriple
  refine getLast?_filter_unique ht (by simp) ?_
  intro b hb hpb
  simp only [decide_eq_true_eq] at hpb
  exact dest_inj e nbx nby hnd hb ht (by rw [hpb])

/-- An unwritten bin holds `none`. -/
lemma hitTriple_none (e : Expansion) (nbx nby : Nat) {x y : Int}
    (h : ∀ t ∈ triples nbx nby e.num_terms, dest e nbx nby t ≠ (x, y)) :
    hitTriple e nbx nby x y = none := by
  unfold hitTriple
  have : (triples nbx nby e.num_terms).filter
      (fun t => decide (dest e nbx nby t = (x, y))) = [] := by
    rw [List.filter_eq_nil_iff]
    intro t ht
    simp [h t ht]
  rw [this]
  rfl

/-- A hit triple is a valid triple (bounds on its components). -/
lemma hitTriple_mem (e : Expansion) (nbx nby : Nat) {x y : Int}
    {t : Nat × Nat × Nat} (h : hitTriple e nbx nby x y = some t) :
    t ∈ triples nbx nby e.num_terms := by
  unfold hitTriple at h
  have hmem : t ∈ (triples nbx nby e.num_terms).filter
      (fun t => decide (dest e nbx nby t = (x, y))) := by
    have h' : t ∈ ((triples nbx nby e.num_terms).filter
        (fun t => decide (dest e nbx nby t = (x, y)))).getLast? := Option.mem_def.mpr h
    obtain ⟨hne', heq⟩ := List.mem_getLast?_eq_getLast h'
    rw [heq]
    exact List.getLast_mem hne'
  exact (List.mem_filter.mp hmem).1

/-- C1. Unflatten round-trip: for every flat array (over an arbitrary value
type `α`, covering arbitrary leading batch axes pointwise) and every expansion
with a nonempty, duplicate-free coefficient list, `unflatten` succeeds and the
resulting grid holds the original flat value at the destination bin
`(i_k*num_bz_kx + bz_x - min(i)*num_bz_kx, j_k*num_bz_ky + bz_y - min(j)*num_bz_ky)`
of every order `k` and Brillouin sample `(bz_x, bz_y)`, while every bin that is
not such a destination holds the NaN sentinel (`none`). -/
theorem unflatten_round_trip {α : Type} (e : Expansion) (nbx nby : Nat)
    (flat : Nat → Nat → Nat → α)
    (hne : e.basis_coefficients ≠ []) (hnd : e.basis_coefficients.Nodup) :
    ∃ g : UnflatGrid α, unflatten e nbx nby flat = some g ∧
      g.nkx = numKx e nbx ∧ g.nky = numKy e nby ∧
      (∀ k bx by_, k < e.num_terms → bx < nbx → by_ < nby →
        g.entry (destX e nbx (coeffI e k) bx) (destY e nby (coeffJ e k) by_) =
          some (flat bx by_ k)) ∧
      (∀ x y : Int,
        (∀ k bx by_, k < e.num_terms → bx < nbx → by_ < nby →
          (destX e nbx (coeffI e k) bx, destY e nby (coeffJ e k) by_) ≠ (x, y)) →
        g.entry x y = none) := by
  obtain ⟨a, as, hcons⟩ :=
    List.exists_cons_of_ne_nil (show iList e ≠ [] from by simp [iList, hne])
  refine ⟨⟨numKx e nbx, numKy e nby, unflattenEntry e nbx nby flat⟩, ?_, rfl, rfl, ?_, ?_⟩
  · unfold unflatten
    rw [hcons]
    simp [List.min?]
  · intro k bx by_ hk hbx hby
    have ht : ((bx, by_, k) : Nat × Nat × Nat) ∈ triples nbx nby e.num_terms :=
      mem_triples.mpr ⟨hbx, hby, hk⟩
    have := hitTriple_dest e nbx nby hnd ht
    simp only [unflattenEntry_eq_hit]
    unfold dest at this
    simp only at this
    rw [this]
    rfl
  · intro x y hxy
    simp only [unflattenEntry_eq_hit]
    rw [hitTriple_none e nbx nby ?_]
    · rfl
    · intro t ht
      rw [mem_triples] at ht
      exact hxy t.2.2 t.1 t.2.1 ht.2.2 ht.1 ht.2.1

/-- Witness for C1 at a concrete input: the expansion `{(0,0), (1,2)}` with a
`2 x 1` Brillouin grid. -/
theorem unflatten_round_trip_witness :
    ∃ g : UnflatGrid Nat,
      unflatten ⟨[(0, 0), (1, 2)]⟩ 2 1 (fun bx by_ k => 100 * bx + 10 * by_ + k) = some g ∧
      g.nkx = numKx ⟨[(0, 0), (1, 2)]⟩ 2 ∧ g.nky = numKy ⟨[(0, 0), (1, 2)]⟩ 1 ∧
      (∀ k bx by_, k < Expansion.num_terms ⟨[(0, 0), (1, 2)]⟩ → bx < 2 → by_ < 1 →
        g.entry (destX ⟨[(0, 0), (1, 2)]⟩ 2 (coeffI ⟨[(0, 0), (1, 2)]⟩ k) bx)
            (destY ⟨[(0, 0), (1, 2)]⟩ 1 (coeffJ ⟨[(0, 0), (1, 2)]⟩ k) by_) =
          some (100 * bx + 10 * by_ + k)) ∧
      (∀ x y : Int,
        (∀ k bx by_, k < Expansion.num_terms ⟨[(0, 0), (1, 2)]⟩ → bx < 2 → by_ < 1 →
          (destX ⟨[(0, 0), (1, 2)]⟩ 2 (coeffI ⟨[(0, 0), (1, 2)]⟩ k) bx,
            destY ⟨[(0, 0), (1, 2)]⟩ 1 (coeffJ ⟨[(0, 0), (1, 2)]⟩ k) by_) ≠ (x, y)) →
        g.entry x y = none) :=
  unflatten_round_trip ⟨[(0, 0), (1, 2)]⟩ 2 1 _ (by decide) (by decide)

/-- C7. Empty-expansion edge case: with `num_terms == 0` (and a flat array
whose trailing axis has length 0) `unflatten` does *not* return an empty grid;
it fails, because the source evaluates `min(i)` with Python's builtin `min` on
the empty coefficient array, which raises
`ValueError: min() arg is an empty sequence`.  In the embedding the failure is
the `none` result. -/
theorem unflatten_empty_expansion_fails :
    unflatten ⟨[]⟩ 1 1 (fun _ _ _ => (0 : Nat)) = none := rfl

/-- C4. For every transverse-wavevector grid bin and positive wavelength:
when `sin_polar = kt * wavelength / (2*pi)` is at most `1`, the polar angle is
`arcsin(sin_polar)`; when the wavevector magnitude equals or exceeds
`2*pi/wavelength` the polar angle is exactly `pi/2` (the NaN that `arcsin`
would produce on arguments above 1 is avoided by the `where` clamp); and the
azimuthal angle is the signed full-range `atan2(ky, kx)`: it lies in
`(-pi, pi]` and, away from the origin, its cosine and sine point along
`(kx, ky)`. -/
theorem angles_spec (twGrid : Int → Int → Nat → ℝ) (wavelength : ℝ) (x y : Int)
    (hwl : 0 < wavelength) :
    (Real.sqrt ((twGrid x y 0) ^ 2 + (twGrid x y 1) ^ 2) * wavelength /
          (2 * Real.pi) ≤ 1 →
      (angles_from_unflattened_transverse_wavevectors twGrid wavelength x y).1 =
        Real.arcsin (Real.sqrt ((twGrid x y 0) ^ 2 + (twGrid x y 1) ^ 2) *
          wavelength / (2 * Real.pi))) ∧
    (2 * Real.pi / wavelength ≤
        Real.sqrt ((twGrid x y 0) ^ 2 + (twGrid x y 1) ^ 2) →
      (angles_from_unflattened_transverse_wavevectors twGrid wavelength x y).1 =
        Real.pi / 2) ∧
    (-Real.pi <
        (angles_from_unflattened_transverse_wavevectors twGrid wavelength x y).2 ∧
      (angles_from_unflattened_transverse_wavevectors twGrid wavelength x y).2 ≤
        Real.pi) ∧
    (¬(twGrid x y 0 = 0 ∧ twGrid x y 1 = 0) →
      Real.cos (angles_from_unflattened_transverse_wavevectors twGrid wavelength x y).2 =
          twGrid x y 0 / Real.sqrt ((twGrid x y 0) ^ 2 + (twGrid x y 1) ^ 2) ∧
        Real.sin (angles_from_unflattened_transverse_wavevectors twGrid wavelength x y).2 =
          twGrid x y 1 / Real.sqrt ((twGrid x y 0) ^ 2 + (twGrid x y 1) ^ 2)) := by
  set kx := twGrid x y 0
  set ky := twGrid x y 1
  set kt := Real.sqrt (kx ^ 2 + ky ^ 2) with hkt
  have hz : (Complex.mk kx ky) = (kx : ℂ) + (ky : ℂ) * Complex.I := by
    apply Complex.ext <;> simp
  have habs : Complex.abs (Complex.mk kx ky) = kt := by
    rw [hkt, Complex.abs_apply, Complex.normSq_mk]
    ring_nf
  refine ⟨?_, ?_, ?_, ?_⟩
  · intro hle
    simp only [angles_from_unflattened_transverse_wavevectors, polarAngle]
    rw [if_neg (by simpa using not_lt.mpr hle)]
  · intro hge
    have hsin : 1 ≤ kt * wavelength / (2 * Real.pi) := by
      rw [div_le_iff₀ hwl] at hge
      rw [le_div_iff₀ (by positivity : (0 : ℝ) < 2 * Real.pi)]
      linarith
    simp only [angles_from_unflattened_transverse_wavevectors, polarAngle]
    rcases lt_or_eq_of_le hsin with hgt | heq
    · rw [if_pos (by simpa using hgt)]
    · rw [if_neg (by simp [← heq]), ← heq, Real.arcsin_one]
  · constructor
    · exact Complex.neg_pi_lt_arg _
    · exact Complex.arg_le_pi _
  · intro hne
    have hz0 : (Complex.mk kx ky) ≠ 0 := by
      intro h
      apply hne
      constructor
      · simpa using congrArg Complex.re h
      · simpa using congrArg Complex.im h
    constructor
    · rw [show (angles_from_unflattened_transverse_wavevectors twGrid wavelength x y).2 =
          Complex.arg (Complex.mk kx ky) from rfl]
      rw [Complex.cos_arg hz0, habs]
    · rw [show (angles_from_unflattened_transverse_wavevectors twGrid wavelength x y).2 =
          Complex.arg (Complex.mk kx ky) from rfl]
      rw [Complex.sin_arg, habs]

/-- Witness for C4 at the concrete bin value `(0, 0)` and wavelength `1`. -/
theorem angles_spec_witness :
    (Real.sqrt (((fun _ _ _ => (0 : ℝ)) (0 : Int) (0 : Int) 0) ^ 2 +
            ((fun _ _ _ => (0 : ℝ)) (0 : Int) (0 : Int) 1) ^ 2) * 1 /
          (2 * Real.pi) ≤ 1 →
      (angles_from_unflattened_transverse_wavevectors (fun _ _ _ => (0 : ℝ)) 1 0 0).1 =
        Real.arcsin (Real.sqrt (((fun _ _ _ => (0 : ℝ)) (0 : Int) (0 : Int) 0) ^ 2 +
            ((fun _ _ _ => (0 : ℝ)) (0 : Int) (0 : Int) 1) ^ 2) * 1 / (2 * Real.pi))) ∧
    (2 * Real.pi / 1 ≤
        Real.sqrt (((fun _ _ _ => (0 : ℝ)) (0 : Int) (0 : Int) 0) ^ 2 +
          ((fun _ _ _ => (0 : ℝ)) (0 : Int) (0 : Int) 1) ^ 2) →
      (angles_from_unflattened_transverse_wavevectors (fun _ _ _ => (0 : ℝ)) 1 0 0).1 =
        Real.pi / 2) ∧
    ((-Real.pi <
        (angles_from_unflattened_transverse_wavevectors (fun _ _ _ => (0 : ℝ)) 1 0 0).2 ∧
      (angles_from_unflattened_transverse_wavevectors (fun _ _ _ => (0 : ℝ)) 1 0 0).2 ≤
        Real.pi)) ∧
    (¬((fun _ _ _ => (0 : ℝ)) (0 : Int) (0 : Int) 0 = 0 ∧
        (fun _ _ _ => (0 : ℝ)) (0 : Int) (0 : Int) 1 = 0) →
      Real.cos (angles_from_unflattened_transverse_wavevectors
            (fun _ _ _ => (0 : ℝ)) 1 0 0).2 =
          (fun _ _ _ => (0 : ℝ)) (0 : Int) (0 : Int) 0 /
            Real.sqrt (((fun _ _ _ => (0 : ℝ)) (0 : Int) (0 : Int) 0) ^ 2 +
              ((fun _ _ _ => (0 : ℝ)) (0 : Int) (0 : Int) 1) ^ 2) ∧
        Real.sin (angles_from_unflattened_transverse_wavevectors
            (fun _ _ _ => (0 : ℝ)) 1 0 0).2 =
          (fun _ _ _ => (0 : ℝ)) (0 : Int) (0 : Int) 1 /
            Real.sqrt (((fun _ _ _ => (0 : ℝ)) (0 : Int) (0 : Int) 0) ^ 2 +
              ((fun _ _ _ => (0 : ℝ)) (0 : Int) (0 : Int) 1) ^ 2)) :=
  angles_spec (fun _ _ _ => (0 : ℝ)) 1 0 0 (by norm_num)

/-- C5. Solid-angle positivity: at every non-degenerate bin — one whose
quadrilateral cell has nonzero cross product and whose normalized transverse
wavevector lies strictly inside the unit disk (not evanescent, not grazing) —
the computed solid angle is strictly positive (and in particular a genuine
finite real: the cosine divisor is nonzero). -/
theorem solid_angle_pos (n m : Nat) (twGrid : Int → Int → Nat → ℝ)
    (wavelength : ℝ) (x y : Int)
    (hcross : cellCross n m twGrid wavelength x y ≠ 0)
    (hkt : Real.sqrt ((normKx twGrid wavelength x y) ^ 2 +
      (normKy twGrid wavelength x y) ^ 2) < 1) :
    0 < solid_angle_from_unflattened_transverse_wavevectors n m twGrid
      wavelength x y := by
  unfold solid_angle_from_unflattened_transverse_wavevectors
  apply div_pos
  · exact abs_pos.mpr hcross
  · apply Real.cos_pos_of_mem_Ioo
    constructor
    · have h1 : 0 ≤ Real.arcsin (Real.sqrt
          ((normKx twGrid wavelength x y) ^ 2 + (normKy twGrid wavelength x y) ^ 2)) :=
        Real.arcsin_nonneg.mpr (Real.sqrt_nonneg _)
      have h2 : (0 : ℝ) < Real.pi / 2 := by positivity
      linarith
    · exact Real.arcsin_lt_pi_div_two.mpr hkt

/-- Witness for C5: a `2 x 2` grid with `wavelength = 2*pi` (so the
normalization is by 1) and wavevectors `(i/10, j/10)`; the cell at `(0, 0)`
has cross product `-1/400` and central magnitude `0`. -/
theorem solid_angle_pos_witness :
    (cellCross 2 2 (fun i j d => if d = 0 then (i : ℝ) / 10 else (j : ℝ) / 10)
        (2 * Real.pi) 0 0 ≠ 0 ∧
      Real.sqrt ((normKx (fun i j d => if d = 0 then (i : ℝ) / 10 else (j : ℝ) / 10)
          (2 * Real.pi) 0 0) ^ 2 +
        (normKy (fun i j d => if d = 0 then (i : ℝ) / 10 else (j : ℝ) / 10)
          (2 * Real.pi) 0 0) ^ 2) < 1) ∧
    0 < solid_angle_from_unflattened_transverse_wavevectors 2 2
      (fun i j d => if d = 0 then (i : ℝ) / 10 else (j : ℝ) / 10) (2 * Real.pi) 0 0 := by
  have hpi : (2 * Real.pi / (2 * Real.pi)) = 1 := by
    field_simp
  have hclamp0 : clampIdx 2 (-1) = 0 := by decide
  have hclamp1 : clampIdx 2 0 = 0 := by decide
  have hclamp2 : clampIdx 2 1 = 1 := by decide
  have hcross : cellCross 2 2
      (fun i j d => if d = 0 then (i : ℝ) / 10 else (j : ℝ) / 10)
      (2 * Real.pi) 0 0 = -(1 / 400) := by
    simp only [cellCross, vertexVal, padE, normKx, normKy, hpi]
    norm_num [hclamp0, hclamp1, hclamp2]
  have hkt : Real.sqrt ((normKx
      (fun i j d => if d = 0 then (i : ℝ) / 10 else (j : ℝ) / 10)
        (2 * Real.pi) 0 0) ^ 2 +
      (normKy (fun i j d => if d = 0 then (i : ℝ) / 10 else (j : ℝ) / 10)
        (2 * Real.pi) 0 0) ^ 2) < 1 := by
    simp only [normKx, normKy, hpi]
    norm_num [Real.sqrt_zero]
  have hc : cellCross 2 2
      (fun i j d => if d = 0 then (i : ℝ) / 10 else (j : ℝ) / 10)
      (2 * Real.pi) 0 0 ≠ 0 := by
    rw [hcross]; norm_num
  exact ⟨⟨hc, hkt⟩, solid_angle_pos 2 2 _ (2 * Real.pi) 0 0 hc hkt⟩

/-!  ### Pipeline lemmas -/

lemma fluxGridZ_eq (e : Expansion) (nbx nby : Nat) (f : Nat → Nat → Nat → ℝ)
    (x y : Int) (p : Nat) :
    fluxGridZ e nbx nby f x y p =
      match hitTriple e nbx nby x y with
      | some t => f t.1 t.2.1 (p * e.num_terms + t.2.2)
      | none => 0 := by
  unfold fluxGridZ
  rw [unflattenEntry_eq_hit]
  cases hitTriple e nbx nby x y <;> rfl

lemma twGridZ_eq (e : Expansion) (nbx nby : Nat)
    (tw : Nat → Nat → Nat → Nat → ℝ) (x y : Int) (d : Nat) :
    twGridZ e nbx nby tw x y d =
      match hitTriple e nbx nby x y with
      | some t => tw t.1 t.2.1 t.2.2 d
      | none => 0 := by
  unfold twGridZ
  rw [unflattenEntry_eq_hit]
  cases hitTriple e nbx nby x y <;> rfl

lemma fluxGridZ_add (e : Expansion) (nbx nby : Nat)
    (f1 f2 : Nat → Nat → Nat → ℝ) (x y : Int) (p : Nat) :
    fluxGridZ e nbx nby (fun bx by_ k2 => f1 bx by_ k2 + f2 bx by_ k2) x y p =
      fluxGridZ e nbx nby f1 x y p + fluxGridZ e nbx nby f2 x y p := by
  rw [fluxGridZ_eq, fluxGridZ_eq, fluxGridZ_eq]
  cases hitTriple e nbx nby x y <;> simp

lemma fluxGridZ_mul (e : Expansion) (nbx nby : Nat) (c : ℝ)
    (f : Nat → Nat → Nat → ℝ) (x y : Int) (p : Nat) :
    fluxGridZ e nbx nby (fun bx by_ k2 => c * f bx by_ k2) x y p =
      c * fluxGridZ e nbx nby f x y p := by
  rw [fluxGridZ_eq, fluxGridZ_eq]
  cases hitTriple e nbx nby x y <;> simp

/-- The grids read the flux only at in-range indices with `k2 < 2*num_terms`
(for polarization index `p < 2`). -/
lemma fluxGridZ_congr (e : Expansion) (nbx nby : Nat)
    (f1 f2 : Nat → Nat → Nat → ℝ) (x y : Int) (p : Nat) (hp : p < 2)
    (h : ∀ bx by_ k2, bx < nbx → by_ < nby → k2 < 2 * e.num_terms →
      f1 bx by_ k2 = f2 bx by_ k2) :
    fluxGridZ e nbx nby f1 x y p = fluxGridZ e nbx nby f2 x y p := by
  rw [fluxGridZ_eq, fluxGridZ_eq]
  cases hhit : hitTriple e nbx nby x y with
  | none => rfl
  | some t =>
    have ht := mem_triples.mp (hitTriple_mem e nbx nby hhit)
    have hk2 : p * e.num_terms + t.2.2 < 2 * e.num_terms := by
      have hcase : p = 0 ∨ p = 1 := by omega
      rcases hcase with h0 | h1
      · subst h0; omega
      · subst h1; omega
    exact h t.1 t.2.1 _ ht.1 ht.2.1 hk2

lemma resample1D_add (u n : Nat) (g1 g2 : Int → ℝ) (o : Int) :
    resample1D u n (fun a => g1 a + g2 a) o =
      resample1D u n g1 o + resample1D u n g2 o := by
  unfold resample1D; ring

lemma resample1D_mul (u n : Nat) (c : ℝ) (g : Int → ℝ) (o : Int) :
    resample1D u n (fun a => c * g a) o = c * resample1D u n g o := by
  unfold resample1D; ring

lemma resample1D_congr (u n : Nat) (g1 g2 : Int → ℝ) (o : Int)
    (h : ∀ a, g1 a = g2 a) : resample1D u n g1 o = resample1D u n g2 o := by
  unfold resample1D; rw [h, h]

lemma clampIdx_of_mem (n : Nat) (o : Int) (h0 : 0 ≤ o) (h1 : o < n) :
    clampIdx n o = o := by
  unfold clampIdx; omega

/-- Upsampling by a factor of 1 is the identity on in-range indices. -/
lemma resample1D_one (n : Nat) (g : Int → ℝ) (o : Int) (h0 : 0 ≤ o)
    (h1 : o < n) : resample1D 1 n g o = g o := by
  have hf : resampleF 1 o = o := by
    unfold resampleF
    simp only [Nat.cast_one]
    rw [show (2 * o + 1 - 1 : Int) = 2 * o by ring]
    rw [show (2 * (1 : Int)) = 2 by ring]
    exact Int.mul_fdiv_cancel_left o (by norm_num)
  have ht : resampleT 1 o = 0 := by
    unfold resampleT
    rw [hf]
    push_cast
    ring_nf
  unfold resample1D
  rw [hf, ht, clampIdx_of_mem n o h0 h1]
  ring

lemma resample2D_add (u nx ny : Nat) (g1 g2 : Int → Int → ℝ) (x y : Int) :
    resample2D u nx ny (fun a b => g1 a b + g2 a b) x y =
      resample2D u nx ny g1 x y + resample2D u nx ny g2 x y := by
  unfold resample2D
  rw [resample1D_congr u ny _
    (fun b => resample1D u nx (fun a => g1 a b) x +
      resample1D u nx (fun a => g2 a b) x) y
    (fun b => resample1D_add u nx _ _ x)]
  exact resample1D_add u ny _ _ y

lemma resample2D_mul (u nx ny : Nat) (c : ℝ) (g : Int → Int → ℝ) (x y : Int) :
    resample2D u nx ny (fun a b => c * g a b) x y =
      c * resample2D u nx ny g x y := by
  unfold resample2D
  rw [resample1D_congr u ny _
    (fun b => c * resample1D u nx (fun a => g a b) x) y
    (fun b => resample1D_mul u nx c _ x)]
  exact resample1D_mul u ny c _ y

lemma resample2D_congr (u nx ny : Nat) (g1 g2 : Int → Int → ℝ) (x y : Int)
    (h : ∀ a b, g1 a b = g2 a b) :
    resample2D u nx ny g1 x y = resample2D u nx ny g2 x y := by
  unfold resample2D
  exact resample1D_congr u ny _ _ y
    (fun b => resample1D_congr u nx _ _ x (fun a => h a b))

lemma resample2D_one (nx ny : Nat) (g : Int → Int → ℝ) (x y : Int)
    (hx0 : 0 ≤ x) (hx1 : x < nx) (hy0 : 0 ≤ y) (hy1 : y < ny) :
    resample2D 1 nx ny g x y = g x y := by
  unfold resample2D
  rw [resample1D_one ny _ y hy0 hy1]
  exact resample1D_one nx _ x hx0 hx1

lemma upsampledFlux_add (e : Expansion) (nbx nby u : Nat)
    (f1 f2 : Nat → Nat → Nat → ℝ) (x y : Int) (p : Nat) :
    upsampledFlux e nbx nby u (fun bx by_ k2 => f1 bx by_ k2 + f2 bx by_ k2) x y p =
      upsampledFlux e nbx nby u f1 x y p + upsampledFlux e nbx nby u f2 x y p := by
  unfold upsampledFlux
  rw [resample2D_congr u _ _ _
    (fun a b => fluxGridZ e nbx nby f1 a b p + fluxGridZ e nbx nby f2 a b p) x y
    (fun a b => fluxGridZ_add e nbx nby f1 f2 a b p)]
  exact resample2D_add u _ _ _ _ x y

lemma upsampledFlux_mul (e : Expansion) (nbx nby u : Nat) (c : ℝ)
    (f : Nat → Nat → Nat → ℝ) (x y : Int) (p : Nat) :
    upsampledFlux e nbx nby u (fun bx by_ k2 => c * f bx by_ k2) x y p =
      c * upsampledFlux e nbx nby u f x y p := by
  unfold upsampledFlux
  rw [resample2D_congr u _ _ _
    (fun a b => c * fluxGridZ e nbx nby f a b p) x y
    (fun a b => fluxGridZ_mul e nbx nby c f a b p)]
  exact resample2D_mul u _ _ c _ x y

lemma upsampledFlux_congr (e : Expansion) (nbx nby u : Nat)
    (f1 f2 : Nat → Nat → Nat → ℝ) (x y : Int) (p : Nat) (hp : p < 2)
    (h : ∀ bx by_ k2, bx < nbx → by_ < nby → k2 < 2 * e.num_terms →
      f1 bx by_ k2 = f2 bx by_ k2) :
    upsampledFlux e nbx nby u f1 x y p = upsampledFlux e nbx nby u f2 x y p := by
  unfold upsampledFlux
  exact resample2D_congr u _ _ _ _ x y
    (fun a b => fluxGridZ_congr e nbx nby f1 f2 a b p hp h)

lemma upsampledFlux_zero (e : Expansion) (nbx nby u : Nat) (x y : Int)
    (p : Nat) : upsampledFlux e nbx nby u (fun _ _ _ => 0) x y p = 0 := by
  have h := upsampledFlux_mul e nbx nby u 0 (fun _ _ _ => 0) x y p
  simpa using h

lemma maskedFluxSum_add (e : Expansion) (nbx nby u : Nat)
    (tw : Nat → Nat → Nat → Nat → ℝ) (wavelength : ℝ)
    (fn : ℝ → ℝ → Option Bool) (f1 f2 : Nat → Nat → Nat → ℝ) :
    maskedFluxSum e nbx nby u tw wavelength fn
        (fun bx by_ k2 => f1 bx by_ k2 + f2 bx by_ k2) =
      maskedFluxSum e nbx nby u tw wavelength fn f1 +
        maskedFluxSum e nbx nby u tw wavelength fn f2 := by
  unfold maskedFluxSum
  rw [div_add_div_same]
  congr 1
  rw [← Finset.sum_add_distrib]
  refine Finset.sum_congr rfl fun x _ => ?_
  rw [← Finset.sum_add_distrib]
  refine Finset.sum_congr rfl fun y _ => ?_
  rw [← Finset.sum_add_distrib]
  refine Finset.sum_congr rfl fun p _ => ?_
  rw [upsampledFlux_add]
  split <;> simp

lemma maskedFluxSum_mul (e : Expansion) (nbx nby u : Nat)
    (tw : Nat → Nat → Nat → Nat → ℝ) (wavelength : ℝ)
    (fn : ℝ → ℝ → Option Bool) (c : ℝ) (f : Nat → Nat → Nat → ℝ) :
    maskedFluxSum e nbx nby u tw wavelength fn
        (fun bx by_ k2 => c * f bx by_ k2) =
      c * maskedFluxSum e nbx nby u tw wavelength fn f := by
  unfold maskedFluxSum
  rw [← mul_div_assoc]
  congr 1
  rw [Finset.mul_sum]
  refine Finset.sum_congr rfl fun x _ => ?_
  rw [Finset.mul_sum]
  refine Finset.sum_congr rfl fun y _ => ?_
  rw [Finset.mul_sum]
  refine Finset.sum_congr rfl fun p _ => ?_
  rw [upsampledFlux_mul]
  split <;> simp

lemma maskedFluxSum_zero (e : Expansion) (nbx nby u : Nat)
    (tw : Nat → Nat → Nat → Nat → ℝ) (wavelength : ℝ)
    (fn : ℝ → ℝ → Option Bool) :
    maskedFluxSum e nbx nby u tw wavelength fn (fun _ _ _ => 0) = 0 := by
  have h := maskedFluxSum_mul e nbx nby u tw wavelength fn 0 (fun _ _ _ => 0)
  simpa using h

lemma maskedFluxSum_congr (e : Expansion) (nbx nby u : Nat)
    (tw : Nat → Nat → Nat → Nat → ℝ) (wavelength : ℝ)
    (fn : ℝ → ℝ → Option Bool) (f1 f2 : Nat → Nat → Nat → ℝ)
    (h : ∀ bx by_ k2, bx < nbx → by_ < nby → k2 < 2 * e.num_terms →
      f1 bx by_ k2 = f2 bx by_ k2) :
    maskedFluxSum e nbx nby u tw wavelength fn f1 =
      maskedFluxSum e nbx nby u tw wavelength fn f2 := by
  unfold maskedFluxSum
  congr 1
  refine Finset.sum_congr rfl fun x _ => ?_
  refine Finset.sum_congr rfl fun y _ => ?_
  refine Finset.sum_congr rfl fun p hp => ?_
  rw [upsampledFlux_congr e nbx nby u f1 f2 _ _ p (Finset.mem_range.mp hp) h]

lemma maskedFluxSum_finset_sum {ι : Type} [DecidableEq ι] (e : Expansion)
    (nbx nby u : Nat) (tw : Nat → Nat → Nat → Nat → ℝ) (wavelength : ℝ)
    (fn : ℝ → ℝ → Option Bool) (S : Finset ι) (c : ι → ℝ)
    (base : ι → Nat → Nat → Nat → ℝ) :
    maskedFluxSum e nbx nby u tw wavelength fn
        (fun bx by_ k2 => ∑ idx ∈ S, c idx * base idx bx by_ k2) =
      ∑ idx ∈ S, c idx * maskedFluxSum e nbx nby u tw wavelength fn (base idx) := by
  induction S using Finset.induction_on with
  | empty =>
    simp only [Finset.sum_empty]
    exact maskedFluxSum_zero e nbx nby u tw wavelength fn
  | insert hni ih =>
    rename_i a S'
    simp only [Finset.sum_insert hni]
    rw [maskedFluxSum_add e nbx nby u tw wavelength fn
      (fun bx by_ k2 => c a * base a bx by_ k2)
      (fun bx by_ k2 => ∑ idx ∈ S', c idx * base idx bx by_ k2)]
    rw [maskedFluxSum_mul, ih]

lemma extendFlux_add (e : Expansion) (nbx nby : Nat)
    (f1 f2 : FluxIdx e nbx nby → ℝ) (bx by_ k2 : Nat) :
    extendFlux e nbx nby (f1 + f2) bx by_ k2 =
      extendFlux e nbx nby f1 bx by_ k2 + extendFlux e nbx nby f2 bx by_ k2 := by
  unfold extendFlux
  split <;> simp

lemma extendFlux_smul (e : Expansion) (nbx nby : Nat) (c : ℝ)
    (f : FluxIdx e nbx nby → ℝ) (bx by_ k2 : Nat) :
    extendFlux e nbx nby (c • f) bx by_ k2 =
      c * extendFlux e nbx nby f bx by_ k2 := by
  unfold extendFlux
  split <;> simp

/-- The reduction `_integrated_fn` is linear in the coarse flux vector: every stage of the
pipeline (scatter, NaN-to-zero fill, linear resize, data-independent mask,
summation, division by `upsample_factor**2`) is linear. -/
lemma integratedFn_isLinear (e : Expansion) (nbx nby u : Nat)
    (tw : Nat → Nat → Nat → Nat → ℝ) (wavelength : ℝ)
    (fn : ℝ → ℝ → Option Bool) :
    IsLinearMap ℝ (integratedFn e nbx nby u tw wavelength fn) := by
  constructor
  · intro f1 f2
    show maskedFluxSum e nbx nby u tw wavelength fn
        (extendFlux e nbx nby (f1 + f2)) =
      maskedFluxSum e nbx nby u tw wavelength fn (extendFlux e nbx nby f1) +
        maskedFluxSum e nbx nby u tw wavelength fn (extendFlux e nbx nby f2)
    rw [show extendFlux e nbx nby (f1 + f2) =
        (fun bx by_ k2 => extendFlux e nbx nby f1 bx by_ k2 +
          extendFlux e nbx nby f2 bx by_ k2) from
      funext fun bx => funext fun by_ => funext fun k2 =>
        extendFlux_add e nbx nby f1 f2 bx by_ k2]
    exact maskedFluxSum_add e nbx nby u tw wavelength fn _ _
  · intro c f
    show maskedFluxSum e nbx nby u tw wavelength fn
        (extendFlux e nbx nby (c • f)) =
      c * maskedFluxSum e nbx nby u tw wavelength fn (extendFlux e nbx nby f)
    rw [show extendFlux e nbx nby (c • f) =
        (fun bx by_ k2 => c * extendFlux e nbx nby f bx by_ k2) from
      funext fun bx => funext fun by_ => funext fun k2 =>
        extendFlux_smul e nbx nby c f bx by_ k2]
    exact maskedFluxSum_mul e nbx nby u tw wavelength fn c _

/-- The reverse-mode gradient of the linear `_integrated_fn` at the all-ones
dummy flux is its coefficient vector: component `idx` equals `_integrated_fn`
applied to the one-hot flux at `idx`. -/
lemma gradWeights_eq (e : Expansion) (nbx nby u : Nat)
    (tw : Nat → Nat → Nat → Nat → ℝ) (wavelength : ℝ)
    (fn : ℝ → ℝ → Option Bool) (idx : FluxIdx e nbx nby) :
    gradWeights e nbx nby u tw wavelength fn idx =
      integratedFn e nbx nby u tw wavelength fn (Pi.single idx 1) := by
  unfold gradWeights
  have h : integratedFn e nbx nby u tw wavelength fn =
      ⇑(LinearMap.toContinuousLinearMap
        (IsLinearMap.mk' _ (integratedFn_isLinear e nbx nby u tw wavelength fn))) := by
    funext f
    rfl
  rw [h, ContinuousLinearMap.fderiv]

/-- Pointwise decomposition of an extended flux vector into one-hot
contributions. -/
lemma extendFlux_decomp (e : Expansion) (nbx nby : Nat)
    (f : FluxIdx e nbx nby → ℝ) (bx by_ k2 : Nat) :
    extendFlux e nbx nby f bx by_ k2 =
      ∑ idx : FluxIdx e nbx nby,
        f idx * extendFlux e nbx nby (Pi.single idx 1) bx by_ k2 := by
  unfold extendFlux
  by_cases h : bx < nbx ∧ by_ < nby ∧ k2 < 2 * e.num_terms
  · rw [dif_pos h]
    rw [Finset.sum_congr rfl fun idx _ => by rw [dif_pos h]]
    rw [Finset.sum_congr rfl fun idx _ => by
      rw [Pi.single_apply, mul_ite, mul_one, mul_zero]]
    rw [Finset.sum_ite_eq Finset.univ _ f]
    simp
  · rw [dif_neg h]
    rw [Finset.sum_congr rfl fun idx _ => by rw [dif_neg h]]
    simp

/-- The coarse weights contracted with any coarse flux vector reproduce the
masked upsampled sum of that flux: the weight-by-gradient trick is exact. -/
lemma weights_inner (e : Expansion) (nbx nby u : Nat)
    (tw : Nat → Nat → Nat → Nat → ℝ) (wavelength : ℝ)
    (fn : ℝ → ℝ → Option Bool) (g : Nat → Nat → Nat → ℝ) :
    (∑ idx : FluxIdx e nbx nby,
        gradWeights e nbx nby u tw wavelength fn idx * g idx.1 idx.2.1 idx.2.2) =
      maskedFluxSum e nbx nby u tw wavelength fn g := by
  classical
  set rg : FluxIdx e nbx nby → ℝ := fun idx => g idx.1 idx.2.1 idx.2.2 with hrg
  have hbox : maskedFluxSum e nbx nby u tw wavelength fn g =
      maskedFluxSum e nbx nby u tw wavelength fn (extendFlux e nbx nby rg) := by
    refine maskedFluxSum_congr e nbx nby u tw wavelength fn _ _ ?_
    intro bx by_ k2 h1 h2 h3
    unfold extendFlux
    rw [dif_pos ⟨h1, h2, h3⟩]
  rw [hbox]
  have hdec : extendFlux e nbx nby rg =
      fun bx by_ k2 => ∑ idx : FluxIdx e nbx nby,
        rg idx * extendFlux e nbx nby (Pi.single idx 1) bx by_ k2 :=
    funext fun bx => funext fun by_ => funext fun k2 =>
      extendFlux_decomp e nbx nby rg bx by_ k2
  rw [hdec]
  rw [maskedFluxSum_finset_sum e nbx nby u tw wavelength fn Finset.univ rg
    (fun idx => extendFlux e nbx nby (Pi.single idx 1))]
  refine Finset.sum_congr rfl fun idx _ => ?_
  rw [gradWeights_eq]
  rw [mul_comm]
  rfl

/-- The unconditional equivalence of `integrated_flux` with the direct
per-source pipeline, including agreement of the failure cases. -/
lemma integrated_flux_eq_upsampled (e : Expansion) (nbx nby : Nat) (u : Int)
    (flux : Nat → Nat → Nat → Nat → ℝ) (tw : Nat → Nat → Nat → Nat → ℝ)
    (wavelength : ℝ) (fn : ℝ → ℝ → Option Bool) :
    integrated_flux e nbx nby u flux tw wavelength fn =
      integrated_flux_upsampled e nbx nby u flux tw wavelength fn := by
  unfold integrated_flux integrated_flux_weights integrated_flux_upsampled
  by_cases hu : u < 1
  · rw [if_pos hu, if_pos hu]
    rfl
  · rw [if_neg hu, if_neg hu]
    cases hmin : (iList e).min? with
    | none => rfl
    | some m =>
      simp only [Option.map_some']
      congr 1
      funext s
      exact weights_inner e nbx nby u.toNat tw wavelength fn
        (fun bx by_ k2 => flux bx by_ k2 s)

/-- With an always-true mask and `upsample_factor = 1` the masked upsampled
sum is the plain sum of the zero-filled unflattened flux over the two spatial
axes and the polarization axis. -/
lemma maskedFluxSum_one_true (e : Expansion) (nbx nby : Nat)
    (tw : Nat → Nat → Nat → Nat → ℝ) (wavelength : ℝ)
    (g : Nat → Nat → Nat → ℝ) :
    maskedFluxSum e nbx nby 1 tw wavelength (fun _ _ => some true) g =
      ∑ x ∈ Finset.range (numKx e nbx), ∑ y ∈ Finset.range (numKy e nby),
        ∑ p ∈ Finset.range 2, fluxGridZ e nbx nby g (x : Int) (y : Int) p := by
  unfold maskedFluxSum
  rw [one_mul, one_mul]
  simp only [Nat.cast_one, one_pow, div_one]
  refine Finset.sum_congr rfl fun x hx => ?_
  refine Finset.sum_congr rfl fun y hy => ?_
  refine Finset.sum_congr rfl fun p _ => ?_
  have hsel : pipelineSel e nbx nby 1 tw wavelength (fun _ _ => some true)
      (x : Int) (y : Int) = true := rfl
  rw [if_pos hsel]
  unfold upsampledFlux
  exact resample2D_one _ _ _ _ _ (by positivity)
    (by exact_mod_cast Finset.mem_range.mp hx) (by positivity)
    (by exact_mod_cast Finset.mem_range.mp hy)

/-- C2. Weight-by-gradient equivalence: for every flux array (any number
of source columns), transverse wavevectors, wavelength, mask function, and
upsample factor, `integrated_flux` — which applies the once-computed gradient
weights by elementwise multiply and sum over the Brillouin-grid and
order/polarization axes — coincides with the direct per-source
upsample-mask-sum pipeline on the actual flux (including agreement of the
failure cases). -/
theorem integrated_flux_weight_gradient_equiv (e : Expansion) (nbx nby : Nat)
    (u : Int) (flux : Nat → Nat → Nat → Nat → ℝ)
    (tw : Nat → Nat → Nat → Nat → ℝ) (wavelength : ℝ)
    (fn : ℝ → ℝ → Option Bool) :
    integrated_flux e nbx nby u flux tw wavelength fn =
      integrated_flux_upsampled e nbx nby u flux tw wavelength fn :=
  integrated_flux_eq_upsampled e nbx nby u flux tw wavelength fn

/-- C3. With an always-true mask and `upsample_factor = 1`,
`integrated_flux` returns, per source, the plain sum of all unflattened flux
values over the two spatial axes and the polarization axis (the NaN gap bins
counting as zero — `fluxGridZ` is the zero-filled unflattened flux grid). -/
theorem integrated_flux_full_sum (e : Expansion) (nbx nby : Nat)
    (flux : Nat → Nat → Nat → Nat → ℝ) (tw : Nat → Nat → Nat → Nat → ℝ)
    (wavelength : ℝ) (hne : e.basis_coefficients ≠ []) :
    integrated_flux e nbx nby 1 flux tw wavelength (fun _ _ => some true) =
      some fun s =>
        ∑ x ∈ Finset.range (numKx e nbx), ∑ y ∈ Finset.range (numKy e nby),
          ∑ p ∈ Finset.range 2,
            fluxGridZ e nbx nby (fun bx by_ k2 => flux bx by_ k2 s)
              (x : Int) (y : Int) p := by
  rw [integrated_flux_eq_upsampled]
  unfold integrated_flux_upsampled
  rw [if_neg (by norm_num)]
  obtain ⟨a, as, hcons⟩ :=
    List.exists_cons_of_ne_nil (show iList e ≠ [] from by simp [iList, hne])
  rw [hcons]
  simp only [List.min?]
  congr 1
  funext s
  exact maskedFluxSum_one_true e nbx nby tw wavelength _

/-- Witness for C3 on the single-order expansion `{(0,0)}` with a `1 x 1`
Brillouin grid and unit flux. -/
theorem integrated_flux_full_sum_witness :
    integrated_flux ⟨[(0, 0)]⟩ 1 1 1 (fun _ _ _ _ => (1 : ℝ))
        (fun _ _ _ _ => 0) 1 (fun _ _ => some true) =
      some fun s =>
        ∑ x ∈ Finset.range (numKx ⟨[(0, 0)]⟩ 1),
          ∑ y ∈ Finset.range (numKy ⟨[(0, 0)]⟩ 1),
            ∑ p ∈ Finset.range 2,
              fluxGridZ ⟨[(0, 0)]⟩ 1 1
                (fun bx by_ k2 => (fun _ _ _ _ => (1 : ℝ)) bx by_ k2 s)
                (x : Int) (y : Int) p :=
  integrated_flux_full_sum ⟨[(0, 0)]⟩ 1 1 _ _ 1 (by decide)

/-- C9. Linearity of `integrated_flux` in the flux argument: the weights
are computed from the all-ones dummy array and depend on the flux only
through its shape, so the result is linear in the flux. -/
theorem integrated_flux_linear (e : Expansion) (nbx nby : Nat) (u : Int)
    (flux1 flux2 : Nat → Nat → Nat → Nat → ℝ) (a b : ℝ)
    (tw : Nat → Nat → Nat → Nat → ℝ) (wavelength : ℝ)
    (fn : ℝ → ℝ → Option Bool) (hu : 1 ≤ u)
    (hne : e.basis_coefficients ≠ []) :
    ∃ r1 r2 : Nat → ℝ,
      integrated_flux e nbx nby u flux1 tw wavelength fn = some r1 ∧
      integrated_flux e nbx nby u flux2 tw wavelength fn = some r2 ∧
      integrated_flux e nbx nby u
          (fun bx by_ k2 s => a * flux1 bx by_ k2 s + b * flux2 bx by_ k2 s)
          tw wavelength fn =
        some fun s => a * r1 s + b * r2 s := by
  unfold integrated_flux integrated_flux_weights
  rw [if_neg (by omega)]
  obtain ⟨c, cs, hcons⟩ :=
    List.exists_cons_of_ne_nil (show iList e ≠ [] from by simp [iList, hne])
  rw [hcons]
  simp only [List.min?, Option.map_some']
  refine ⟨_, _, rfl, rfl, ?_⟩
  congr 1
  funext s
  rw [Finset.mul_sum, Finset.mul_sum, ← Finset.sum_add_distrib]
  refine Finset.sum_congr rfl fun idx _ => ?_
  ring

/-- Witness for C9 at a concrete instantiation. -/
theorem integrated_flux_linear_witness :
    ∃ r1 r2 : Nat → ℝ,
      integrated_flux ⟨[(0, 0)]⟩ 1 1 1 (fun _ _ _ _ => (1 : ℝ))
          (fun _ _ _ _ => 0) 1 (fun _ _ => some true) = some r1 ∧
      integrated_flux ⟨[(0, 0)]⟩ 1 1 1 (fun _ _ _ _ => (5 : ℝ))
          (fun _ _ _ _ => 0) 1 (fun _ _ => some true) = some r2 ∧
      integrated_flux ⟨[(0, 0)]⟩ 1 1 1
          (fun bx by_ k2 s => 2 * (fun _ _ _ _ => (1 : ℝ)) bx by_ k2 s +
            3 * (fun _ _ _ _ => (5 : ℝ)) bx by_ k2 s)
          (fun _ _ _ _ => 0) 1 (fun _ _ => some true) =
        some fun s => 2 * r1 s + 3 * r2 s :=
  integrated_flux_linear ⟨[(0, 0)]⟩ 1 1 1 _ _ 2 3 _ 1 _ (by decide) (by decide)

/-- C8. Invalid upsample factor: for `upsample_factor < 1` the call fails
fast (the `assert upsample_factor >= 1` in `_integrated_flux_upsampled`,
executed while tracing the gradient) rather than returning a value. -/
theorem integrated_flux_invalid_upsample (e : Expansion) (nbx nby : Nat)
    (u : Int) (flux : Nat → Nat → Nat → Nat → ℝ)
    (tw : Nat → Nat → Nat → Nat → ℝ) (wavelength : ℝ)
    (fn : ℝ → ℝ → Option Bool) (hu : u < 1) :
    integrated_flux e nbx nby u flux tw wavelength fn = none ∧
    integrated_flux_upsampled e nbx nby u flux tw wavelength fn = none := by
  unfold integrated_flux integrated_flux_weights integrated_flux_upsampled
  rw [if_pos hu, if_pos hu]
  exact ⟨rfl, rfl⟩

/-- Witness for C8 at `upsample_factor = 0`. -/
theorem integrated_flux_invalid_upsample_witness :
    integrated_flux ⟨[(0, 0)]⟩ 1 1 0 (fun _ _ _ _ => (1 : ℝ))
        (fun _ _ _ _ => 0) 1 (fun _ _ => some true) = none ∧
    integrated_flux_upsampled ⟨[(0, 0)]⟩ 1 1 0 (fun _ _ _ _ => (1 : ℝ))
        (fun _ _ _ _ => 0) 1 (fun _ _ => some true) = none :=
  integrated_flux_invalid_upsample ⟨[(0, 0)]⟩ 1 1 0 _ _ 1 _ (by decide)

/-- C6. NaN policy of the Integrated Flux Engine: the NaN sentinels of
the unflattened flux and wavevector grids are zero before upsampling (gap
bins carry the value 0 in the grids handed to the resizer), NaN mask values
are treated as excluded (`false`), and consequently the weights and the
integrated flux are well-defined real values (no NaN escapes the engine). -/
theorem integrated_flux_nan_policy (e : Expansion) (nbx nby : Nat) (u : Int)
    (flux : Nat → Nat → Nat → Nat → ℝ) (tw : Nat → Nat → Nat → Nat → ℝ)
    (wavelength : ℝ) (fn : ℝ → ℝ → Option Bool) (hu : 1 ≤ u)
    (hne : e.basis_coefficients ≠ []) :
    (∀ (x y : Int) (p s : Nat), gapBin e nbx nby x y →
      fluxGridZ e nbx nby (fun bx by_ k2 => flux bx by_ k2 s) x y p = 0) ∧
    (∀ (x y : Int) (d : Nat), gapBin e nbx nby x y →
      twGridZ e nbx nby tw x y d = 0) ∧
    (∀ polar azim : ℝ, fn polar azim = none → maskSel fn polar azim = false) ∧
    (∃ w, integrated_flux_weights e nbx nby u tw wavelength fn = some w) ∧
    (∃ r, integrated_flux e nbx nby u flux tw wavelength fn = some r) := by
  obtain ⟨c, cs, hcons⟩ :=
    List.exists_cons_of_ne_nil (show iList e ≠ [] from by simp [iList, hne])
  refine ⟨?_, ?_, ?_, ?_, ?_⟩
  · intro x y p s hgap
    rw [fluxGridZ_eq]
    unfold gapBin at hgap
    rw [hgap]
  · intro x y d hgap
    rw [twGridZ_eq]
    unfold gapBin at hgap
    rw [hgap]
  · intro polar azim h
    unfold maskSel
    rw [h]
    rfl
  · unfold integrated_flux_weights
    rw [if_neg (by omega), hcons]
    simp [List.min?]
  · unfold integrated_flux integrated_flux_weights
    rw [if_neg (by omega), hcons]
    simp [List.min?]

/-- Witness for C6 at a concrete instantiation. -/
theorem integrated_flux_nan_policy_witness :
    (∀ (x y : Int) (p s : Nat), gapBin ⟨[(0, 0)]⟩ 1 1 x y →
      fluxGridZ ⟨[(0, 0)]⟩ 1 1
        (fun bx by_ k2 => (fun _ _ _ _ => (1 : ℝ)) bx by_ k2 s) x y p = 0) ∧
    (∀ (x y : Int) (d : Nat), gapBin ⟨[(0, 0)]⟩ 1 1 x y →
      twGridZ ⟨[(0, 0)]⟩ 1 1 (fun _ _ _ _ => (0 : ℝ)) x y d = 0) ∧
    (∀ polar azim : ℝ, (fun _ _ => some true) polar azim = none →
      maskSel (fun _ _ => some true) polar azim = false) ∧
    (∃ w, integrated_flux_weights ⟨[(0, 0)]⟩ 1 1 1 (fun _ _ _ _ => (0 : ℝ)) 1
      (fun _ _ => some true) = some w) ∧
    (∃ r, integrated_flux ⟨[(0, 0)]⟩ 1 1 1 (fun _ _ _ _ => (1 : ℝ))
      (fun _ _ _ _ => (0 : ℝ)) 1 (fun _ _ => some true) = some r) :=
  integrated_flux_nan_policy ⟨[(0, 0)]⟩ 1 1 1 _ _ 1 _ (by decide) (by decide)

/-- C10. Gap-bin angle assignment: a gap bin carries transverse
wavevector `(0, 0)` after the NaN replacement, the angle computation maps
`(0, 0)` to polar angle `0` and azimuthal angle `0` (the `atan2` convention
at the origin), so a mask function that is true at the origin angles includes
the gap bin (shown at `upsample_factor = 1`, where coarse bins persist);
nevertheless the bin contributes zero because its flux was zero-filled. -/
theorem gap_bin_angle_inclusion (e : Expansion) (nbx nby : Nat)
    (flux tw : Nat → Nat → Nat → Nat → ℝ) (wavelength : ℝ)
    (fn : ℝ → ℝ → Option Bool) (x y : Int)
    (hgap : gapBin e nbx nby x y) (hx0 : 0 ≤ x) (hx1 : x < numKx e nbx)
    (hy0 : 0 ≤ y) (hy1 : y < numKy e nby) (hfn : fn 0 0 = some true) :
    twGridZ e nbx nby tw x y 0 = 0 ∧ twGridZ e nbx nby tw x y 1 = 0 ∧
    polarAngle 0 0 wavelength = 0 ∧ azimuthalAngle 0 0 = 0 ∧
    pipelineSel e nbx nby 1 tw wavelength fn x y = true ∧
    (∀ p s : Nat,
      fluxGridZ e nbx nby (fun bx by_ k2 => flux bx by_ k2 s) x y p = 0) := by
  have htw : ∀ d, twGridZ e nbx nby tw x y d = 0 := by
    intro d
    rw [twGridZ_eq]
    unfold gapBin at hgap
    rw [hgap]
  have hpol : polarAngle 0 0 wavelength = 0 := by
    unfold polarAngle
    norm_num [Real.sqrt_zero, Real.arcsin_zero]
  have hazi : azimuthalAngle 0 0 = 0 := by
    unfold azimuthalAngle
    rw [show Complex.mk 0 0 = 0 from by apply Complex.ext <;> simp]
    exact Complex.arg_zero
  refine ⟨htw 0, htw 1, hpol, hazi, ?_, ?_⟩
  · have hup : ∀ d, upsampledTW e nbx nby 1 tw x y d =
        twGridZ e nbx nby tw x y d := by
      intro d
      unfold upsampledTW
      exact resample2D_one _ _ _ x y hx0 hx1 hy0 hy1
    show maskSel fn
      (polarAngle (upsampledTW e nbx nby 1 tw x y 0)
        (upsampledTW e nbx nby 1 tw x y 1) wavelength)
      (azimuthalAngle (upsampledTW e nbx nby 1 tw x y 0)
        (upsampledTW e nbx nby 1 tw x y 1)) = true
    rw [hup 0, hup 1, htw 0, htw 1, hpol, hazi]
    unfold maskSel
    rw [hfn]
    rfl
  · intro p s
    rw [fluxGridZ_eq]
    unfold gapBin at hgap
    rw [hgap]

/-- Witness for C10: the expansion `{(0,0), (2,0)}` on a `1 x 1` Brillouin
grid leaves the bin `(1, 0)` as a gap. -/
theorem gap_bin_angle_inclusion_witness :
    twGridZ ⟨[(0, 0), (2, 0)]⟩ 1 1 (fun _ _ _ _ => (0 : ℝ)) 1 0 0 = 0 ∧
    twGridZ ⟨[(0, 0), (2, 0)]⟩ 1 1 (fun _ _ _ _ => (0 : ℝ)) 1 0 1 = 0 ∧
    polarAngle 0 0 1 = 0 ∧ azimuthalAngle 0 0 = 0 ∧
    pipelineSel ⟨[(0, 0), (2, 0)]⟩ 1 1 1 (fun _ _ _ _ => (0 : ℝ)) 1
      (fun _ _ => some true) 1 0 = true ∧
    (∀ p s : Nat,
      fluxGridZ ⟨[(0, 0), (2, 0)]⟩ 1 1
        (fun bx by_ k2 => (fun _ _ _ _ => (1 : ℝ)) bx by_ k2 s) 1 0 p = 0) :=
  gap_bin_angle_inclusion ⟨[(0, 0), (2, 0)]⟩ 1 1 _ _ 1 _ 1 0 (by decide)
    (by decide) (by decide) (by decide) (by decide) rfl

end Farfield
